import Mathlib

/-!
# Master Merge Tool — verification of the `/merge` pipeline (src/app.js)

Shallow embedding of the server-side merge pipeline of the extended variant
(`src/app.js`): the type classifier (`getFileType`), the natural-sort
comparator (`naturalSort`), the text word-wrap/pagination (`textToPdfPages`),
the image page-placement arithmetic of the `/merge` image branch, and the
`/merge` handler's per-file dispatch/recovery loop.

Modelling conventions:
* JS strings are modelled as `String`/`List Char` (inputs of interest are
  code-point sequences; surrogate issues do not arise for the claims).
* `String.prototype.toLowerCase` is modelled on the ASCII range (`jsLowerChar`),
  which is exact for every supported extension.
* `localeCompare` is required by ECMA-402/262 to induce a consistent total
  order on strings; it is modelled as code-point order (`cmpChars`), the
  canonical such order.  The concrete comparisons exercised by the claims
  only ever call it on equal strings, where every locale returns 0.
* JS numbers: all point arithmetic of the pipeline (612, 792, 50, 40,
  fontSize 10, lineHeight 15, Courier glyph width 600/1000) is exact in
  binary floating point at the magnitudes involved, so it is modelled in `ℚ`
  (and `Nat` where the source computes `Math.floor` of an exact ratio).
  Digit runs in `naturalSort` are modelled at exact integer value; IEEE
  rounding in the source collapses only runs beyond 2^53, which coarsens the
  comparator's equivalence classes without affecting the order laws.
* The external libraries (pdf-lib load/copy, sharp decode/resize, mammoth,
  xlsx, marked) are opaque capabilities: a `Buffer` records the outcome each
  library call would produce on those bytes (success value or thrown error
  message), exactly the interface the handler consumes.
-/

/-! ## Type Classifier — `getFileType` (src/app.js:47-53) -/

inductive FileCategory
  | pdf | image | word | excel | text | markdown | html | powerpoint
  deriving DecidableEq, Repr

/-- The `SUPPORTED` extension table (src/app.js:36-45), in object insertion
order (the order `Object.entries` iterates). -/
def SUPPORTED : List (FileCategory × List String) :=
  [(.pdf, [".pdf"]),
   (.image, [".jpg", ".jpeg", ".png", ".gif", ".webp", ".bmp", ".tiff", ".tif"]),
   (.word, [".docx", ".doc"]),
   (.excel, [".xlsx", ".xls", ".csv"]),
   (.text, [".txt"]),
   (.markdown, [".md", ".markdown"]),
   (.html, [".html", ".htm"]),
   (.powerpoint, [".pptx", ".ppt"])]

/-- ASCII lower-casing of one character, the fragment of
`String.prototype.toLowerCase` relevant to extension matching. -/
def jsLowerChar (c : Char) : Char :=
  if 'A' ≤ c ∧ c ≤ 'Z' then Char.ofNat (c.toNat + 32) else c

def jsToLower (s : String) : String := String.mk (s.data.map jsLowerChar)

/-- Characters after the last `'.'` of the list, if any. -/
def afterLastDot : List Char → Option (List Char)
  | [] => none
  | c :: cs =>
    match afterLastDot cs with
    | some t => some t
    | none => if c = '.' then some cs else none

/-- The regex `/\.[^.]+$/`: the final dot-suffix including the dot, or `""`
when there is no dot followed by at least one non-dot character at the end. -/
def extOf (s : String) : String :=
  match afterLastDot s.data with
  | some t => if t = [] then "" else String.mk ('.' :: t)
  | none => ""

/-- Model of `getFileType` (src/app.js:47-53): lower-case the name, take the final
dot-suffix, return the first category whose extension list contains it;
`none` models the JS `null` (unrecognized). -/
def getFileType (filename : String) : Option FileCategory :=
  let ext := extOf (jsToLower filename)
  (SUPPORTED.find? (fun p => p.snd.contains ext)).map (·.fst)

/-! ## Natural-Order Sequencer — `naturalSort` (src/app.js:55-65) -/

/-- One token pushed by `a.replace(/(\d+)|(\D+)/g, ...)`: a digit run is
pushed as `[digits, ""]` (compared by numeric value), a non-digit run as
`[Infinity, text]` (compared by `localeCompare` after the `Infinity -
Infinity = NaN` subtraction falls through). -/
inductive NTok
  | num (n : Nat)
  | str (s : List Char)
  deriving DecidableEq, Repr

/-- JS `\d`. -/
def isDigitChar (c : Char) : Bool := '0' ≤ c && c ≤ '9'

def natOfDigits (l : List Char) : Nat :=
  l.foldl (fun n c => 10 * n + (c.toNat - '0'.toNat)) 0

/-- Fuel-indexed worker for `tokenize` (structural recursion on the fuel,
which the wrapper instantiates with the list length — always enough, since
each run consumes at least one character). -/
def tokenizeFuel : Nat → List Char → List NTok
  | _, [] => []
  | 0, l => [NTok.str l]
  | fuel + 1, c :: cs =>
    let run := c :: cs.takeWhile (fun d => isDigitChar d = isDigitChar c)
    let rest := cs.dropWhile (fun d => isDigitChar d = isDigitChar c)
    (if isDigitChar c then NTok.num (natOfDigits run) else NTok.str run)
      :: tokenizeFuel fuel rest

/-- Tokenization into maximal alternating digit / non-digit runs, exactly the
match sequence of `/(\d+)|(\D+)/g`. -/
def tokenize (l : List Char) : List NTok := tokenizeFuel l.length l

/-- Three-way comparison of naturals. -/
def cmpNat (m n : Nat) : Ordering :=
  if m < n then .lt else if n < m then .gt else .eq

/-- Code-point comparison of character lists (the model of `localeCompare`,
see the header). -/
def cmpChars : List Char → List Char → Ordering
  | [], [] => .eq
  | [], _ :: _ => .lt
  | _ :: _, [] => .gt
  | a :: as, b :: bs =>
    match cmpNat a.toNat b.toNat with
    | .eq => cmpChars as bs
    | o => o

/-- The per-token comparison `(an[0] - bn[0]) || an[1].localeCompare(bn[1])`:
two digit runs compare by value (equal values fall through to
`localeCompare("","") = 0`); a digit run is below a text run
(`n - Infinity = -Infinity`); two text runs fall through
(`Infinity - Infinity = NaN`, falsy) to `localeCompare`. -/
def cmpTok : NTok → NTok → Ordering
  | .num m, .num n => cmpNat m n
  | .num _, .str _ => .lt
  | .str _, .num _ => .gt
  | .str s, .str t => cmpChars s t

/-- The `while (ax.length && bx.length)` loop plus the
`return ax.length - bx.length` tie-break. -/
def cmpTokList : List NTok → List NTok → Ordering
  | [], [] => .eq
  | [], _ :: _ => .lt
  | _ :: _, [] => .gt
  | a :: as, b :: bs =>
    match cmpTok a b with
    | .eq => cmpTokList as bs
    | o => o

/-- Model of `naturalSort` (src/app.js:55-65), with the returned JS number abstracted
to its sign as an `Ordering`. -/
def naturalSort (a b : String) : Ordering :=
  cmpTokList (tokenize a.data) (tokenize b.data)

/-! ## Text Paginator — `textToPdfPages` (src/app.js:217-279) -/

/-- JS `String.prototype.split` with a one-character separator: never returns
`[]`, splitting `""` gives `[""]`, adjacent separators give empty pieces. -/
def splitChar (sep : Char) : List Char → List (List Char)
  | [] => [[]]
  | c :: cs =>
    let r := splitChar sep cs
    if c = sep then [] :: r
    else
      match r with
      | [] => [[c]]
      | w :: ws => (c :: w) :: ws

/-- The code points of the Windows-1252 ("WinAnsi") 0x80-0x9F slots, per the
WinAnsi encoding table pdf-lib's standard-font embedder uses. -/
def winAnsiExtras : List Nat :=
  [0x20AC, 0x201A, 0x0192, 0x201E, 0x2026, 0x2020, 0x2021, 0x02C6, 0x2030,
   0x0160, 0x2039, 0x0152, 0x017D, 0x2018, 0x2019, 0x201C, 0x201D, 0x2022,
   0x2013, 0x2014, 0x02DC, 0x2122, 0x0161, 0x203A, 0x0153, 0x017E, 0x0178]

/-- Whether WinAnsi can encode a code point: the printable ASCII range, the
Latin-1 range 0xA0-0xFF, and the 27 specials of the 0x80-0x9F slots.
Control characters (newline included) have no WinAnsi glyph; pdf-lib's
`encodeUnicodeCodePoint` throws on every code point outside this set. -/
def winAnsiEncodable (c : Char) : Bool :=
  (0x20 ≤ c.toNat && c.toNat ≤ 0x7E) || (0xA0 ≤ c.toNat && c.toNat ≤ 0xFF)
    || winAnsiExtras.contains c.toNat

/-- The message `encodeUnicodeCodePoint` throws (the source formats it as
`WinAnsi cannot encode "c" (0x....)`); the model keeps the prefix and the
embedded offending character — the part the notice re-throw behaviour
depends on. -/
def winAnsiErrMsg (c : Char) : String :=
  "WinAnsi cannot encode " ++ String.mk [c]

/-- A character the wrap/draw path cannot render: WinAnsi-unencodable and
not a newline (newlines are split separators for the wrap loop, and the
title `drawText` splits on newlines itself). -/
def lineBadChar (c : Char) : Bool := !(c = '\n') && !winAnsiEncodable c

/-- The first character of a text on which the wrap loop's width test
throws, if any (the wrap loop processes lines and words left to right, and
pdf-lib encodes each string left to right, so the first throwing character
is the first bad character in text order). -/
def firstBadChar (text : String) : Option Char := text.data.find? lineBadChar

/-- The width value `font.widthOfTextAtSize(s, size)` returns for the
embedded Standard-14 Courier when it does not throw: every glyph (space
included) has width 600/1000 em, so the width is `len * 600 * size / 1000`;
at `fontSize = 10` that is `6` pt per character, exact in floating point. -/
def courierWidth (l : List Char) (size : ℚ) : ℚ :=
  (l.length : ℚ) * (600 * size / 1000)

/-- Model of `font.widthOfTextAtSize(s, size)` for the embedded Standard-14
Courier, including its failure behaviour: pdf-lib encodes the text code
point by code point and throws the encoder's error on the first character
WinAnsi cannot encode; on success the width is `courierWidth`. -/
def widthOfTextAtSize (l : List Char) (size : ℚ) : Except String ℚ :=
  match l.find? (fun c => !winAnsiEncodable c) with
  | some c => .error (winAnsiErrMsg c)
  | none => .ok (courierWidth l size)

/-- The column width `maxWidth = pageWidth - margin * 2 = 612 - 100` (src/app.js:225). -/
def maxTextWidth : ℚ := 612 - 50 * 2

/-- The overflow test `font.widthOfTextAtSize(test, 10) > maxWidth` of
src/app.js:240 on the non-throwing path.  The returned width is
`len * 600 * 10 / 1000` and the margin 512, both exact, so the comparison
equals the integer comparison `len * 600 * 10 > 512 * 1000` (proved as
`exceedsColumn_iff_width`); the definition uses the integer form so that it
evaluates by kernel reduction.  The throwing path of the width call is
handled by `textToPdfPagesE`, which pre-scans the text exactly as the wrap
loop's sequence of width calls would. -/
def exceedsColumn (l : List Char) : Bool :=
  512 * 1000 < l.length * (600 * 10)

/-- The inner greedy word-wrap loop over one line's space-split words
(src/app.js:236-247), with accumulator `current` (`""` ≍ `[]` is the JS
falsy case). -/
def wrapGo : List (List Char) → List Char → List (List Char)
  | [], current => if current = [] then [] else [current]
  | w :: ws, current =>
    let test := if current = [] then w else current ++ ' ' :: w
    if exceedsColumn test ∧ current ≠ [] then
      current :: wrapGo ws w
    else
      wrapGo ws test

/-- Wrapping of a single newline-free line (src/app.js:232-248): an empty
line contributes one empty output line, otherwise the words are wrapped. -/
def wrapLine (line : List Char) : List (List Char) :=
  if line = [] then [[]] else wrapGo (splitChar ' ' line) []

/-- The `wrappedLines` array for a whole text (src/app.js:229-248): split on newlines,
wrap each line independently, concatenate in order. -/
def wrapText (text : String) : List (List Char) :=
  (splitChar '\n' text.data).flatMap wrapLine

/-- JS truthiness of the `title` argument (`null`/`""` are falsy). -/
def titleTruthy : Option String → Bool
  | none => false
  | some s => !(s == "")

/-- The page capacity `maxLines = Math.floor((pageHeight - margin*2 - (title ? 40 : 0)) /
lineHeight)` (src/app.js:226) with `lineHeight = 10 * 1.5 = 15`; all values
are exact, so `Nat` division is the floor.  Note the source computes this
once and uses it for every page of the text. -/
def maxLinesFor (title : Option String) : Nat :=
  (792 - 50 * 2 - (if titleTruthy title then 40 else 0)) / 15

/-- Fuel-indexed worker for `chunkSucc` (structural recursion on the fuel;
the wrapper supplies the list length, always sufficient because every chunk
consumes at least one element). -/
def chunkFuel (k : Nat) : Nat → List α → List (List α)
  | _, [] => []
  | 0, x :: xs => [x :: xs]
  | fuel + 1, x :: xs => (x :: xs.take k) :: chunkFuel k fuel (xs.drop k)

/-- Splitting a list into chunks of `k + 1` elements, the loop
`for (i = 0; i < wrappedLines.length; i += maxLines)` (src/app.js:251-252),
with chunk size `maxLines = k + 1`. -/
def chunkSucc (k : Nat) (l : List α) : List (List α) := chunkFuel k l.length l

/-- One produced text page: its wrapped lines in drawing order, and the title
drawn at its top (`i === 0 && title`, src/app.js:257). -/
structure TextPage where
  lines : List (List Char)
  title : Option String
  deriving DecidableEq, Repr

/-- Model of `textToPdfPages` (src/app.js:217-279) as the sequence of pages it appends:
lines are wrapped, grouped into pages of `maxLinesFor title` lines, and the
(truthy) title is drawn on the first produced page only. -/
def textToPdfPages (text : String) (title : Option String) : List TextPage :=
  let wrapped := wrapText text
  match chunkSucc (maxLinesFor title - 1) wrapped with
  | [] => []
  | c :: cs =>
    ⟨c, if titleTruthy title then title else none⟩ :: cs.map (⟨·, none⟩)

/-- Model of `textToPdfPages` (src/app.js:217-279) including the failure
behaviour of the pdf-lib calls it makes.  Derivation from the source:
(1) the wrap loop width-tests every `test` string (line 240), and every
non-space character of every newline-split line occurs in some `test`
(each word enters `test` once, when it is processed; the space glyph is
WinAnsi 0x20 and newlines are consumed by the split) — so the wrap loop
throws exactly on the first WinAnsi-unencodable non-newline character of
the text, in text order; (2) if wrapping succeeded every page line was
already width-checked, so the per-line `drawText` (line 269) cannot throw;
(3) the only remaining encode is the title `drawText` (line 258), reached
only when at least one page is produced and the title is truthy
(`drawText` handles newlines itself, so only non-newline characters need
encoding).  On success the pages are exactly the `textToPdfPages` layout. -/
def textToPdfPagesE (text : String) (title : Option String) :
    Except String (List TextPage) :=
  match firstBadChar text with
  | some c => .error (winAnsiErrMsg c)
  | none =>
    match textToPdfPages text title with
    | [] => .ok []
    | p :: ps =>
      if titleTruthy title then
        match (title.getD "").data.find? lineBadChar with
        | some c => .error (winAnsiErrMsg c)
        | none => .ok (p :: ps)
      else .ok (p :: ps)

/-! ## Image page placement — `/merge` image branch (src/app.js:1405-1412) -/

/-- Binary `Math.min` on the (NaN-free) rationals the pipeline computes. -/
def mathMin (a b : ℚ) : ℚ := if a ≤ b then a else b

/-- Binary `Math.max` on the (NaN-free) rationals the pipeline computes. -/
def mathMax (a b : ℚ) : ℚ := if a ≤ b then b else a

/-- The placement scale `Math.min(612 / width, 792 / height, 1)` (src/app.js:1408).
Sharp never reports a zero dimension for a decoded image, so the divisions
are by positive numbers in every reachable state. -/
def imageScale (w h : Nat) : ℚ :=
  mathMin (612 / (w : ℚ)) (mathMin (792 / (h : ℚ)) 1)

/-! ## Page Assembly Engine — `app.post("/merge")` (src/app.js:1384-1458) -/

/-- One page of the growing output document. -/
inductive PageUnit
  | copied (srcPage : Nat)
  | image (pageW pageH drawW drawH : ℚ)
  | text (page : TextPage)
  deriving DecidableEq, Repr

/-- The image branch (src/app.js:1405-1412): page size
`[max(w·scale, 100), max(h·scale, 100)]`, image drawn at `w·scale × h·scale`
filling from the origin. -/
def imagePageUnit (w h : Nat) : PageUnit :=
  let s := imageScale w h
  .image (mathMax ((w : ℚ) * s) 100) (mathMax ((h : ℚ) * s) 100)
    ((w : ℚ) * s) ((h : ℚ) * s)

/-- Outcomes of the opaque library calls on one uploaded buffer (see the file
header): each field is the value the corresponding call returns, or the
message of the error it throws. -/
structure Buffer where
  /-- Outcome of `PDFDocument.load(buffer, ...)` with `ignoreEncryption: false`, followed by
  `copyPages`: the source pages in source order, or the thrown message
  (an encrypted document throws a message containing "encrypted"). -/
  loadPdf : Except String (List Nat)
  /-- Outcome of `imageToPdfPage(buffer, quality)` (src/app.js:92-110): the normalized
  pixel dimensions, or the thrown decode-error message. -/
  normalizeImg : Except String (Nat × Nat)
  /-- Value of `buffer.toString(...)` decoded as UTF-8. -/
  utf8Text : String
  /-- Value of `wordToText(buffer)` — total, it catches internally (src/app.js:113-121). -/
  wordText : String
  /-- Value of `excelToText(buffer)` — total (src/app.js:124-174). -/
  excelText : String
  /-- Value of `markdownToText(buffer)` (src/app.js:177-181). -/
  mdText : String
  /-- Value of `htmlToText(buffer)` (src/app.js:184-187). -/
  htmlText : String
  /-- Value of `pptxToText(buffer)` — total (src/app.js:190-214). -/
  pptxText : String
  deriving Repr

/-- One multer upload: `f.originalname` and its in-memory buffer. -/
structure InputFile where
  originalname : String
  buffer : Buffer
  deriving Repr

/-- The pages the rendering of a converted text appends when no
WinAnsi-encode error occurs (the happy path of `renderTextE`). -/
def renderText (text : String) (title : Option String) : List PageUnit :=
  (textToPdfPages text title).map .text

/-- The error text built by the per-file catch (src/app.js:1441). -/
def errText (filename msg : String) : String :=
  "Error processing file: " ++ filename ++ "\n\n" ++ msg

/-- The pages of the error notice when its rendering succeeds (the happy
path of `noticeOrThrow`): `errText` rendered with title `'Error'`. -/
def errorPages (filename msg : String) : List PageUnit :=
  renderText (errText filename msg) (some "Error")

/-- Rendering of converted text into output pages via `textToPdfPages`;
the `.error` is the WinAnsi-encode throw. -/
def renderTextE (text : String) (title : Option String) :
    Except String (List PageUnit) :=
  (textToPdfPagesE text title).map (List.map .text)

/-- The catch block of src/app.js:1438-1443: build the error text from the
filename and the thrown message and render it with title `'Error'`.  The
rendering happens inside the catch, so it can itself throw — when the
filename or the message embeds a WinAnsi-unencodable character — and then
the error escapes the loop. -/
def noticeOrThrow (filename msg : String) : Except String (List PageUnit) :=
  renderTextE (errText filename msg) (some "Error")

/-- The body of the per-file `try` (src/app.js:1399-1437): classify by name
and dispatch.  The `.error` is the exception the branch throws: a PDF that
fails to load, an image that fails to decode, or a text conversion whose
rendering hits a WinAnsi-unencodable character.  An unrecognized name
matches no branch and appends nothing. -/
def tryConvert (f : InputFile) : Except String (List PageUnit) :=
  let filename := f.originalname
  match getFileType filename with
  | some .pdf => (f.buffer.loadPdf).map (List.map .copied)
  | some .image => (f.buffer.normalizeImg).map (fun wh => [imagePageUnit wh.1 wh.2])
  | some .word => renderTextE f.buffer.wordText (some filename)
  | some .excel => renderTextE f.buffer.excelText (some filename)
  | some .text => renderTextE f.buffer.utf8Text (some filename)
  | some .markdown => renderTextE f.buffer.mdText (some filename)
  | some .html => renderTextE f.buffer.htmlText (some filename)
  | some .powerpoint => renderTextE f.buffer.pptxText (some filename)
  | none => .ok []

/-- One iteration of the `for (const f of uploaded)` loop (src/app.js:
1395-1444): the try body, with thrown conversion errors recovered by the
catch's error notice — whose own rendering failure escapes. -/
def processFile (f : InputFile) : Except String (List PageUnit) :=
  match tryConvert f with
  | .ok ps => .ok ps
  | .error e => noticeOrThrow f.originalname e

/-- The sequential loop over the uploads: the first escaping exception
aborts the remaining files and propagates to the top-level catch. -/
def processAll : List InputFile → Except String (List PageUnit)
  | [] => .ok []
  | f :: fs =>
    match processFile f with
    | .error e => .error e
    | .ok ps =>
      match processAll fs with
      | .error e => .error e
      | .ok rest => .ok (ps ++ rest)

/-- Whether a file's processing completes without an escaping exception. -/
def exceptOk : Except String (List PageUnit) → Bool
  | .ok _ => true
  | .error _ => false

/-- The page group a successfully processed file appends (`[]` for a file
whose processing escapes — such a batch answers 500 and has no output). -/
def okPages (f : InputFile) : List PageUnit :=
  match processFile f with
  | .ok ps => ps
  | .error _ => []

/-- The HTTP response of `POST /merge`. -/
inductive MergeResponse
  | badRequest (msg : String)
  | okPdf (pages : List PageUnit)
  | serverError (msg : String)
  deriving DecidableEq, Repr

/-- Contiguous-substring test (`String.prototype.includes`). -/
def listIncludes (needle : List Char) : List Char → Bool
  | [] => needle.isPrefixOf []
  | c :: cs => needle.isPrefixOf (c :: cs) || listIncludes needle cs

/-- Test `msg.toLowerCase().includes(needle)` for an already-lower-case needle. -/
def includesLower (hay needle : String) : Bool :=
  listIncludes needle.data (jsToLower hay).data

/-- The top-level catch (src/app.js:1451-1457): classify the escaped message
into the dedicated encrypted-PDF 500 response versus the generic 500.  It
is reachable from the loop when the error notice's own rendering re-throws;
a PDF load failure, by contrast, never reaches it — the per-file catch
recovers it first. -/
def topLevelErrorResponse (msg : String) : MergeResponse :=
  if includesLower msg "encrypted" || includesLower msg "password" then
    .serverError "One or more PDFs are encrypted. Remove password protection and try again."
  else
    .serverError msg

/-- Model of the `POST /merge` handler (src/app.js:1384-1458): reject an
empty upload list with the 400 text before any conversion work; otherwise
process every file in order and answer 200 with the assembled document —
unless an exception escapes the loop (a per-file failure whose error notice
itself fails to render), in which case the top-level catch classifies the
message and answers 500. -/
def mergeHandler (files : List InputFile) : MergeResponse :=
  if files.length = 0 then .badRequest "No files uploaded."
  else
    match processAll files with
    | .ok pages => .okPdf pages
    | .error msg => topLevelErrorResponse msg

/-! ## Word sequences (for the round-trip properties) -/

/-- The whitespace-separated words of one newline-free line: the nonempty
pieces of its space-split. -/
def wordsOfLine (l : List Char) : List (List Char) :=
  (splitChar ' ' l).filter (· ≠ [])

/-- The whitespace-separated word sequence of a whole text. -/
def jsWords (text : String) : List (List Char) :=
  (splitChar '\n' text.data).flatMap wordsOfLine

/-- The visible word sequence of one output page (text pages only; copied
PDF pages and image pages carry no wrapped text). -/
def pageWords : PageUnit → List (List Char)
  | .text p => p.lines.flatMap wordsOfLine
  | _ => []

/-! ## Concrete inputs used by the closed theorems -/

/-- A buffer none of whose library outcomes is consulted. -/
def dummyBuffer : Buffer :=
  { loadPdf := .error "unused", normalizeImg := .error "unused",
    utf8Text := "", wordText := "", excelText := "", mdText := "",
    htmlText := "", pptxText := "" }

/-- The message pdf-lib throws for a password-protected document (its text
contains the word "encrypted"). -/
def encryptedMsg : String :=
  "Input document to PDFDocument.load is encrypted."

/-- The message sharp throws for an undecodable image. -/
def badImgMsg : String :=
  "Input buffer contains unsupported image format"

/-- A password-protected PDF upload: loading it throws `encryptedMsg`. -/
def lockedPdf : InputFile :=
  { originalname := "locked.pdf",
    buffer := { dummyBuffer with loadPdf := .error encryptedMsg } }

/-- A readable two-page PDF upload. -/
def docPdf : InputFile :=
  { originalname := "doc.pdf",
    buffer := { dummyBuffer with loadPdf := .ok [0, 1] } }

/-- A deliberately corrupt image upload: decoding throws `badImgMsg`. -/
def badJpg : InputFile :=
  { originalname := "bad.jpg",
    buffer := { dummyBuffer with normalizeImg := .error badImgMsg } }

def txtA : InputFile :=
  { originalname := "a.txt", buffer := { dummyBuffer with utf8Text := "hello" } }

def txtB : InputFile :=
  { originalname := "b.txt", buffer := { dummyBuffer with utf8Text := "world" } }

def txtC : InputFile :=
  { originalname := "c.txt", buffer := { dummyBuffer with utf8Text := "third" } }

/-- An upload with an unmapped extension. -/
def xyzFile : InputFile :=
  { originalname := "a.xyz", buffer := dummyBuffer }

/-- An upload without an extension. -/
def noextFile : InputFile :=
  { originalname := "noext", buffer := dummyBuffer }

/-- A text of 89 one-character lines (wraps to exactly 89 lines). -/
def text89 : String := String.intercalate "\n" (List.replicate 89 "x")

/-- A text upload whose UTF-8 content contains U+2603 (a snowman), a code
point WinAnsi cannot encode: converting it makes the width test throw, and
the thrown message embeds the character, so the error notice re-throws. -/
def snowTxt : InputFile :=
  { originalname := "snow.txt",
    buffer := { dummyBuffer with utf8Text := "snow\u2603day" } }

/-!
# Theorems

First the supporting lemmas about the embedded definitions, then one theorem
per claim (with its witness or counterexample where applicable).
-/

theorem mathMin_eq_min (a b : ℚ) : mathMin a b = min a b := by
  simp [mathMin, min_def]

theorem mathMax_eq_max (a b : ℚ) : mathMax a b = max a b := by
  simp [mathMax, max_def]

/-- On WinAnsi-encodable input the width call returns (does not throw) the
Courier width, and the integer overflow test used by the model coincides
with the width comparison of src/app.js:240. -/
theorem exceedsColumn_iff_width (l : List Char)
    (h : ∀ c ∈ l, winAnsiEncodable c = true) :
    widthOfTextAtSize l 10 = .ok (courierWidth l 10) ∧
    (exceedsColumn l = true ↔ courierWidth l 10 > maxTextWidth) := by
  constructor
  · rw [widthOfTextAtSize,
      List.find?_eq_none.mpr (fun c hc => by simp [h c hc])]
  · simp only [exceedsColumn, courierWidth, maxTextWidth, decide_eq_true_eq,
      gt_iff_lt]
    rw [show (612 : ℚ) - 50 * 2 = ((512 : Nat) : ℚ) by norm_num,
      show ((l.length : ℚ)) * (600 * 10 / 1000) = ((l.length * 6 : Nat) : ℚ) by
        push_cast; ring]
    rw [Nat.cast_lt]
    omega

theorem chunkFuel_fuel_eq {k : Nat} :
    ∀ (fuel fuel' : Nat) (l : List α), l.length ≤ fuel → l.length ≤ fuel' →
      chunkFuel k fuel l = chunkFuel k fuel' l := by
  intro fuel
  induction fuel with
  | zero =>
    intro fuel' l h _
    have : l = [] := List.eq_nil_of_length_eq_zero (Nat.le_zero.mp h)
    subst this
    cases fuel' <;> rfl
  | succ f ih =>
    intro fuel' l h h'
    cases l with
    | nil => cases fuel' <;> rfl
    | cons x xs =>
      cases fuel' with
      | zero => simp at h'
      | succ f' =>
        simp only [chunkFuel]
        congr 1
        apply ih
        · simp only [List.length_drop]
          simp only [List.length_cons] at h
          omega
        · simp only [List.length_drop]
          simp only [List.length_cons] at h'
          omega

theorem chunkSucc_nil (k : Nat) : chunkSucc k ([] : List α) = [] := rfl


theorem chunkSucc_cons (k : Nat) (x : α) (xs : List α) :
    chunkSucc k (x :: xs) = (x :: xs.take k) :: chunkSucc k (xs.drop k) := by
  simp only [chunkSucc, List.length_cons, chunkFuel]
  congr 1
  apply chunkFuel_fuel_eq
  · simp only [List.length_drop]; omega
  · simp [List.length_drop]

/-! ## Classifier facts and claim C5 -/

theorem char_toNat_ofNat_small {n : Nat} (h : n < 55296) :
    (Char.ofNat n).toNat = n := by
  have hv : n.isValidChar := Or.inl h
  simp only [Char.ofNat, dif_pos hv, Char.ofNatAux, Char.toNat]
  simp [UInt32.toNat, BitVec.toNat_ofNat]

theorem char_le_iff_toNat (a b : Char) : (a ≤ b) ↔ a.toNat ≤ b.toNat := by
  rw [Char.le_def]
  exact ge_iff_le

/-- ASCII lower-casing is idempotent: a mapped character lands in the
lower-case range and is never mapped again. -/
theorem jsLowerChar_idem (c : Char) :
    jsLowerChar (jsLowerChar c) = jsLowerChar c := by
  have hZ : ('Z').toNat = 90 := rfl
  have hA : ('A').toNat = 65 := rfl
  by_cases h : 'A' ≤ c ∧ c ≤ 'Z'
  · simp only [jsLowerChar, if_pos h]
    have hz : c.toNat ≤ 90 := hZ ▸ (char_le_iff_toNat c 'Z').mp h.2
    have htn : (Char.ofNat (c.toNat + 32)).toNat = c.toNat + 32 :=
      char_toNat_ofNat_small (by omega)
    rw [if_neg]
    intro hcon
    have h2 := (char_le_iff_toNat _ 'Z').mp hcon.2
    rw [htn, hZ] at h2
    have ha := hA ▸ (char_le_iff_toNat 'A' c).mp h.1
    omega
  · simp only [jsLowerChar, if_neg h]

theorem jsToLower_idem (s : String) : jsToLower (jsToLower s) = jsToLower s := by
  simp only [jsToLower, List.map_map]
  congr 1
  exact List.map_congr_left (fun c _ => jsLowerChar_idem c)

/-- C5 — Classification is a total function (it is a Lean function into
`Option FileCategory`, every string yielding exactly one result, `none`
standing for the unrecognized category): it is case-insensitive — lowering
the name does not change the result, and names equal up to case classify
identically — and depends only on the final dot-suffix of the lowered name;
`"X.PDF"` and `"x.pdf"` both classify as `pdf`, multi-dotted `"a.b.c.PDF"`
classifies by its last suffix, and the empty name, an extension-less name,
and an unmapped extension all yield the unrecognized result.  (Lower-casing
is modelled on the ASCII range; the only code point whose full-Unicode
lower-case is a plain ASCII letter is U+212A, whose image `k` occurs in no
supported extension, and U+0130 lowers to `i` plus a combining dot that
keeps its suffix unmapped — so the ASCII model classifies every input
exactly as the source does.) -/
theorem C5_classification_total_case_insensitive :
    (∀ s : String, getFileType (jsToLower s) = getFileType s) ∧
    (∀ s t : String, jsToLower s = jsToLower t → getFileType s = getFileType t) ∧
    (∀ s t : String, extOf (jsToLower s) = extOf (jsToLower t) →
      getFileType s = getFileType t) ∧
    getFileType "X.PDF" = some .pdf ∧
    getFileType "x.pdf" = some .pdf ∧
    getFileType "a.b.c.PDF" = some .pdf ∧
    getFileType "" = none ∧
    getFileType "noext" = none ∧
    getFileType "file.xyz" = none ∧
    getFileType "archive.tar.gz" = none := by
  refine ⟨?_, ?_, ?_, by decide, by decide, by decide, by decide, by decide,
    by decide, by decide⟩
  · intro s
    simp only [getFileType, jsToLower_idem]
  · intro s t h
    simp only [getFileType, h]
  · intro s t h
    simp only [getFileType, h]

/-- Witness for C5 at concrete inputs. -/
theorem C5_classification_witness :
    jsToLower "X.PDF" = jsToLower "x.pdf" ∧
    getFileType "X.PDF" = getFileType "x.pdf" ∧
    getFileType (jsToLower "A.JPG") = getFileType "A.JPG" :=
  ⟨by decide,
   C5_classification_total_case_insensitive.2.1 "X.PDF" "x.pdf" (by decide),
   C5_classification_total_case_insensitive.1 "A.JPG"⟩

/-! ## Merge handler basics and claims C4, C10, C1 -/

/-- The top-level catch always answers with some 500. -/
theorem topLevelErrorResponse_isServerError (msg : String) :
    ∃ m, topLevelErrorResponse msg = .serverError m := by
  unfold topLevelErrorResponse
  split
  · exact ⟨_, rfl⟩
  · exact ⟨_, rfl⟩

/-- A batch every one of whose files is unrecognized appends no pages and
throws nothing. -/
theorem processAll_all_unrecognized :
    ∀ (files : List InputFile), (∀ f ∈ files, getFileType f.originalname = none) →
      processAll files = .ok [] := by
  intro files hall
  induction files with
  | nil => rfl
  | cons f fs ih =>
    have h1 : getFileType f.originalname = none := hall f (by simp)
    have h2 : ∀ g ∈ fs, getFileType g.originalname = none :=
      fun g hg => hall g (by simp [hg])
    have hf : processFile f = .ok [] := by
      simp [processFile, tryConvert, h1]
    simp [processAll, hf, ih h2]

/-- A batch whose files all process cleanly yields the concatenation of the
per-file page groups, in order. -/
theorem processAll_all_ok :
    ∀ (files : List InputFile), (∀ x ∈ files, exceptOk (processFile x) = true) →
      processAll files = .ok (files.flatMap okPages) := by
  intro files hall
  induction files with
  | nil => rfl
  | cons f fs ih =>
    have h1 := hall f (by simp)
    have h2 : ∀ x ∈ fs, exceptOk (processFile x) = true :=
      fun x hx => hall x (by simp [hx])
    simp only [processAll, List.flatMap_cons]
    cases hf : processFile f with
    | error e =>
      rw [hf] at h1
      simp [exceptOk] at h1
    | ok ps =>
      rw [ih h2]
      simp [okPages, hf]

/-- C4 counterexample — "fails if and only if the file list is empty" is
refuted by a nonempty batch: one text file whose content holds U+2603 makes
the wrap loop's width call throw; the per-file catch's notice embeds the
thrown message (which embeds the character), so the notice rendering
re-throws, the error escapes to the top-level catch, and the handler
answers a 500 — a nonempty batch that fails. -/
theorem C4_counterexample_nonempty_batch_fails :
    ([snowTxt] : List InputFile) ≠ [] ∧
    mergeHandler [snowTxt] = .serverError (winAnsiErrMsg '\u2603') :=
  ⟨List.cons_ne_nil _ _, by decide⟩

/-- C4 amended — the empty-batch half of the claim holds: zero files are
rejected with the 400 text "No files uploaded." before any conversion, no
nonempty batch ever gets the 400, and no empty batch ever yields a PDF (so
never a zero-page PDF).  But merge does not fail ONLY on the empty list: a
nonempty batch fails with a 500 when a file's processing escapes (its error
notice hits a WinAnsi-unencodable character); every nonempty batch whose
files all process cleanly answers 200. -/
theorem C4_empty_batch_amended :
    mergeHandler [] = .badRequest "No files uploaded." ∧
    (∀ files : List InputFile, files ≠ [] →
      ∀ m, mergeHandler files ≠ .badRequest m) ∧
    (∀ files : List InputFile, files ≠ [] →
      (∀ x ∈ files, exceptOk (processFile x) = true) →
      mergeHandler files = .okPdf (files.flatMap okPages)) ∧
    (∀ (files : List InputFile) (pages : List PageUnit),
      mergeHandler files = .okPdf pages → files ≠ []) := by
  refine ⟨rfl, ?_, ?_, ?_⟩
  · intro files hne m
    have hlen : files.length ≠ 0 :=
      fun h0 => hne (List.eq_nil_of_length_eq_zero h0)
    simp only [mergeHandler, if_neg hlen]
    cases processAll files with
    | ok ps => simp
    | error e =>
      obtain ⟨m', hm⟩ := topLevelErrorResponse_isServerError e
      show topLevelErrorResponse e ≠ MergeResponse.badRequest m
      rw [hm]
      simp
  · intro files hne hall
    have hlen : files.length ≠ 0 :=
      fun h0 => hne (List.eq_nil_of_length_eq_zero h0)
    simp [mergeHandler, hlen, processAll_all_ok files hall]
  · intro files pages h hnil
    subst hnil
    simp [mergeHandler] at h

/-- Witness for the amended C4 at concrete batches. -/
theorem C4_empty_batch_amended_witness :
    mergeHandler [txtA] = .okPdf ([txtA].flatMap okPages) ∧
    mergeHandler [txtA] ≠ .badRequest "No files uploaded." :=
  ⟨C4_empty_batch_amended.2.2.1 [txtA] (List.cons_ne_nil _ _) (by decide),
   C4_empty_batch_amended.2.1 [txtA] (List.cons_ne_nil _ _) "No files uploaded."⟩

/-- C10 — A nonempty batch in which every file has an unmapped extension is
not an error: each such file is skipped silently (no page, no placeholder,
and no rendering that could throw), and the handler answers 200 with a
document containing zero pages. -/
theorem C10_all_unrecognized_yields_zero_page_pdf
    (files : List InputFile) (hne : files ≠ [])
    (hall : ∀ f ∈ files, getFileType f.originalname = none) :
    mergeHandler files = .okPdf [] := by
  have hlen : files.length ≠ 0 := fun h => hne (List.eq_nil_of_length_eq_zero h)
  simp [mergeHandler, hlen, processAll_all_unrecognized files hall]

/-- Witness for C10: a batch of an `.xyz` file and an extension-less file. -/
theorem C10_all_unrecognized_witness :
    mergeHandler [xyzFile, noextFile] = .okPdf [] :=
  C10_all_unrecognized_yields_zero_page_pdf [xyzFile, noextFile]
    (List.cons_ne_nil _ _) (by decide)

/-- C1 — Contrary to the claim, a batch containing an unparseable
(password-protected) native PDF does NOT abort: the per-file catch
(src/app.js:1438-1443) intercepts the failure thrown by the PDF branch just
like any other conversion failure, appends an error notice page (the
encrypted-PDF message is plain ASCII, so the notice renders), and the batch
completes with HTTP 200 — a PDF load failure never reaches the top-level
catch, so the dedicated encrypted-PDF 500 response (src/app.js:1453-1455,
modelled by `topLevelErrorResponse`, which does classify this very message
as the encryption failure) is dead code for PDF load failures. -/
theorem C1_encrypted_pdf_recovered_not_aborted :
    mergeHandler [lockedPdf, txtA, txtB] =
      .okPdf (errorPages "locked.pdf" encryptedMsg ++
        renderText "hello" (some "a.txt") ++ renderText "world" (some "b.txt")) ∧
    (∀ msg, mergeHandler [lockedPdf, txtA, txtB] ≠ .serverError msg) ∧
    topLevelErrorResponse encryptedMsg =
      .serverError "One or more PDFs are encrypted. Remove password protection and try again." := by
  have heq : mergeHandler [lockedPdf, txtA, txtB] =
      .okPdf (errorPages "locked.pdf" encryptedMsg ++
        renderText "hello" (some "a.txt") ++ renderText "world" (some "b.txt")) := by
    decide
  refine ⟨heq, ?_, by decide⟩
  intro msg h
  rw [heq] at h
  exact absurd h (by simp)

/-! ## Chunking and pagination lemmas -/

theorem chunkSucc_eq_nil_iff (k : Nat) (l : List α) :
    chunkSucc k l = [] ↔ l = [] := by
  cases l with
  | nil => simp [chunkSucc_nil]
  | cons x xs => simp [chunkSucc_cons]

/-- Concatenating the chunks restores the list. -/
theorem chunkSucc_flatMap_id (k : Nat) (l : List α) :
    (chunkSucc k l).flatMap id = l := by
  suffices h : ∀ (n : Nat) (l : List α), l.length ≤ n →
      (chunkSucc k l).flatMap id = l from h l.length l le_rfl
  intro n
  induction n with
  | zero =>
    intro l h
    have : l = [] := List.eq_nil_of_length_eq_zero (Nat.le_zero.mp h)
    subst this
    simp [chunkSucc_nil]
  | succ m ih =>
    intro l h
    cases l with
    | nil => simp [chunkSucc_nil]
    | cons x xs =>
      rw [chunkSucc_cons]
      simp only [List.flatMap_cons, id]
      have hlen : (xs.drop k).length ≤ m := by
        simp only [List.length_drop]
        simp only [List.length_cons] at h
        omega
      rw [ih (xs.drop k) hlen]
      simp [List.take_append_drop]

/-- Every chunk is nonempty and holds at most `k + 1` elements. -/
theorem chunkSucc_mem_bounds (k : Nat) (l : List α) :
    ∀ c ∈ chunkSucc k l, c ≠ [] ∧ c.length ≤ k + 1 := by
  suffices h : ∀ (n : Nat) (l : List α), l.length ≤ n →
      ∀ c ∈ chunkSucc k l, c ≠ [] ∧ c.length ≤ k + 1 from h l.length l le_rfl
  intro n
  induction n with
  | zero =>
    intro l h
    have : l = [] := List.eq_nil_of_length_eq_zero (Nat.le_zero.mp h)
    subst this
    simp [chunkSucc_nil]
  | succ m ih =>
    intro l h
    cases l with
    | nil => simp [chunkSucc_nil]
    | cons x xs =>
      rw [chunkSucc_cons]
      intro c hc
      have hlen : (xs.drop k).length ≤ m := by
        simp only [List.length_drop]
        simp only [List.length_cons] at h
        omega
      rcases List.mem_cons.mp hc with h1 | h1
      · subst h1
        refine ⟨List.cons_ne_nil _ _, ?_⟩
        simp only [List.length_cons, List.length_take]
        omega
      · exact ih (xs.drop k) hlen c h1

/-- Every chunk except possibly the last is full (holds exactly `k + 1`
elements). -/
theorem chunkSucc_full_except_last (k : Nat) (l : List α) :
    ∀ i, i + 1 < (chunkSucc k l).length →
      ((chunkSucc k l).map List.length)[i]? = some (k + 1) := by
  suffices h : ∀ (n : Nat) (l : List α), l.length ≤ n →
      ∀ i, i + 1 < (chunkSucc k l).length →
        ((chunkSucc k l).map List.length)[i]? = some (k + 1) from
    h l.length l le_rfl
  intro n
  induction n with
  | zero =>
    intro l h
    have : l = [] := List.eq_nil_of_length_eq_zero (Nat.le_zero.mp h)
    subst this
    simp [chunkSucc_nil]
  | succ m ih =>
    intro l h i hi
    cases l with
    | nil =>
      rw [chunkSucc_nil] at hi
      simp at hi
    | cons x xs =>
      have hlen : (xs.drop k).length ≤ m := by
        simp only [List.length_drop]
        simp only [List.length_cons] at h
        omega
      rw [chunkSucc_cons] at hi ⊢
      cases i with
      | zero =>
        have hne : chunkSucc k (xs.drop k) ≠ [] := by
          intro h0
          rw [h0] at hi
          simp at hi
        have hdrop : xs.drop k ≠ [] :=
          fun h0 => hne (by rw [h0, chunkSucc_nil])
        have hk : k < xs.length := by
          by_contra hk'
          exact hdrop (List.drop_eq_nil_of_le (by omega))
        simp only [List.map_cons, List.getElem?_cons_zero, Option.some.injEq,
          List.length_cons, List.length_take]
        omega
      | succ j =>
        simp only [List.map_cons, List.getElem?_cons_succ]
        apply ih (xs.drop k) hlen
        simp only [List.length_cons] at hi
        omega

/-- A nonempty list short enough for one chunk yields exactly one chunk. -/
theorem chunkSucc_single (k : Nat) (l : List α) (hne : l ≠ [])
    (hlen : l.length ≤ k + 1) : chunkSucc k l = [l] := by
  cases l with
  | nil => exact absurd rfl hne
  | cons x xs =>
    rw [chunkSucc_cons]
    simp only [List.length_cons] at hlen
    rw [List.take_of_length_le (by omega), List.drop_eq_nil_of_le (by omega),
      chunkSucc_nil]

/-- The lines of the produced pages are exactly the chunks of the wrapped
lines. -/
theorem textToPdfPages_map_lines (text : String) (title : Option String) :
    (textToPdfPages text title).map TextPage.lines
      = chunkSucc (maxLinesFor title - 1) (wrapText text) := by
  unfold textToPdfPages
  cases h : chunkSucc (maxLinesFor title - 1) (wrapText text) with
  | nil => simp only [h, List.map_nil]
  | cons c cs =>
    simp only [h, List.map_cons, List.map_map]
    congr 1
    exact List.map_congr_left (fun _ _ => rfl) |>.trans (List.map_id cs)

/-- Concatenating the pages' line groups restores the wrapped lines in
source order. -/
theorem textToPdfPages_flatMap_lines (text : String) (title : Option String) :
    (textToPdfPages text title).flatMap TextPage.lines = wrapText text := by
  have h := chunkSucc_flatMap_id (maxLinesFor title - 1) (wrapText text)
  rw [← textToPdfPages_map_lines, List.flatMap_map] at h
  simpa using h

/-- The title is drawn on the first produced page only (and only when the
JS title argument is truthy). -/
theorem textToPdfPages_titles (text : String) (title : Option String) :
    (∀ p ∈ (textToPdfPages text title).drop 1, p.title = none) ∧
    (∀ p rest, textToPdfPages text title = p :: rest →
      p.title = if titleTruthy title then title else none) := by
  unfold textToPdfPages
  cases h : chunkSucc (maxLinesFor title - 1) (wrapText text) with
  | nil => simp only [h]; simp
  | cons c cs =>
    simp only [h]
    constructor
    · intro p hp
      simp only [List.drop_succ_cons, List.drop_zero] at hp
      rcases List.mem_map.mp hp with ⟨l, _, rfl⟩
      rfl
    · intro p rest hpr
      rw [List.cons.injEq] at hpr
      rw [← hpr.1]

/-- With a truthy title the page capacity is 43 lines; without one it is 46. -/
theorem maxLinesFor_values (t : String) (ht : t ≠ "") :
    maxLinesFor (some t) = 43 ∧ maxLinesFor none = 46 ∧
    maxLinesFor (some t) = (792 - 50 * 2 - 40) / 15 ∧
    maxLinesFor none = (792 - 50 * 2) / 15 := by
  have htr : titleTruthy (some t) = true := by
    simp [titleTruthy, ht]
  refine ⟨?_, rfl, ?_, rfl⟩ <;> simp [maxLinesFor, htr]

set_option maxRecDepth 4000 in
/-- C9 counterexample — With a title supplied and 89 wrapped lines, the code
produces pages of 43, 43 and 3 lines: the second page also holds only
`floor((792 - 2*50 - 40)/15) = 43` lines even though, per the claim, a
subsequent page should hold `floor((792 - 2*50)/15) = 46`; under the claim
the output would be the two pages [43, 46]. -/
theorem C9_counterexample_second_page_not_46 :
    (textToPdfPages text89 (some "T")).map (fun p => p.lines.length)
      = [43, 43, 3] ∧
    (textToPdfPages text89 (some "T")).map (fun p => p.lines.length)
      ≠ [43, 46] ∧
    (792 - 2 * 50) / 15 = 46 := by
  refine ⟨by decide, by decide, by decide⟩

/-- C9 amended — When a (truthy) `titleText` is supplied, the 40pt title
reservation shortens EVERY page of that text, not only the first: each page
holds at most `floor((792 - 2*50 - 40)/15) = 43` wrapped lines, every page
except possibly the last holds exactly 43, and the title is drawn once, on
the first produced page only (later pages carry no title). -/
theorem C9_title_reservation_on_every_page (text t : String) (ht : t ≠ "") :
    maxLinesFor (some t) = (792 - 50 * 2 - 40) / 15 ∧
    maxLinesFor (some t) = 43 ∧
    (∀ p ∈ textToPdfPages text (some t), p.lines.length ≤ 43 ∧ p.lines ≠ []) ∧
    (∀ i, i + 1 < (textToPdfPages text (some t)).length →
      ((textToPdfPages text (some t)).map (fun p => p.lines.length))[i]?
        = some 43) ∧
    (∀ p ∈ (textToPdfPages text (some t)).drop 1, p.title = none) ∧
    (∀ p rest, textToPdfPages text (some t) = p :: rest → p.title = some t) := by
  obtain ⟨h43, _, hform, _⟩ := maxLinesFor_values t ht
  have htr : titleTruthy (some t) = true := by simp [titleTruthy, ht]
  refine ⟨hform, h43, ?_, ?_, ?_, ?_⟩
  · intro p hp
    have hmem : p.lines ∈ (textToPdfPages text (some t)).map TextPage.lines :=
      List.mem_map_of_mem TextPage.lines hp
    rw [textToPdfPages_map_lines] at hmem
    have := chunkSucc_mem_bounds (maxLinesFor (some t) - 1) (wrapText text)
      p.lines hmem
    rw [h43] at this
    exact ⟨by omega, this.1⟩
  · intro i hi
    have hlen : (textToPdfPages text (some t)).length
        = (chunkSucc (maxLinesFor (some t) - 1) (wrapText text)).length := by
      rw [← textToPdfPages_map_lines, List.length_map]
    have hfull := chunkSucc_full_except_last (maxLinesFor (some t) - 1)
      (wrapText text) i (by rw [← hlen]; exact hi)
    rw [← textToPdfPages_map_lines, List.map_map] at hfull
    rw [show ((textToPdfPages text (some t)).map
        (fun p => p.lines.length)) = ((textToPdfPages text (some t)).map
        (List.length ∘ TextPage.lines)) from rfl]
    rw [hfull, h43]
  · exact (textToPdfPages_titles text (some t)).1
  · intro p rest hpr
    have := (textToPdfPages_titles text (some t)).2 p rest hpr
    rwa [htr, if_pos rfl] at this

set_option maxRecDepth 4000 in
/-- Witness for the amended C9 at the concrete 89-line text. -/
theorem C9_title_reservation_witness :
    ((textToPdfPages text89 (some "T")).map (fun p => p.lines.length))[0]?
      = some 43 ∧
    ((textToPdfPages text89 (some "T")).map (fun p => p.lines.length))[1]?
      = some 43 :=
  ⟨(C9_title_reservation_on_every_page text89 "T" (by decide)).2.2.2.1 0
     (by decide),
   (C9_title_reservation_on_every_page text89 "T" (by decide)).2.2.2.1 1
     (by decide)⟩

/-! ## Claim C3 — order preservation -/

/-- C3 — On every batch that processes to completion (no file's processing
escapes with an exception — the claim's "processes to completion" domain),
the assembled document is the in-order concatenation of per-file page
groups: whenever file `f` precedes file `g` in the upload list, every page
produced for `f` precedes every page produced for `g` in the output, and
transposing `f` and `g` transposes exactly their two page groups while
fixing everything else.  Within one file, a text conversion's sub-pages
concatenate back to the wrapped lines in source reading order, and a native
PDF's pages are copied in source order. -/
theorem C3_page_order_follows_input_order :
    (∀ (pre mid post : List InputFile) (f g : InputFile),
      (∀ x ∈ pre ++ f :: (mid ++ g :: post), exceptOk (processFile x) = true) →
      mergeHandler (pre ++ f :: (mid ++ g :: post)) =
        .okPdf (pre.flatMap okPages ++ (okPages f ++
          (mid.flatMap okPages ++ (okPages g ++ post.flatMap okPages)))) ∧
      mergeHandler (pre ++ g :: (mid ++ f :: post)) =
        .okPdf (pre.flatMap okPages ++ (okPages g ++
          (mid.flatMap okPages ++ (okPages f ++ post.flatMap okPages))))) ∧
    (∀ (text : String) (title : Option String),
      (textToPdfPages text title).flatMap TextPage.lines = wrapText text) ∧
    (∀ (name : String) (buf : Buffer) (pages : List Nat),
      getFileType name = some .pdf → buf.loadPdf = .ok pages →
      processFile ⟨name, buf⟩ = .ok (pages.map .copied)) := by
  refine ⟨?_, textToPdfPages_flatMap_lines, ?_⟩
  · intro pre mid post f g hall
    have hall2 : ∀ x ∈ pre ++ g :: (mid ++ f :: post),
        exceptOk (processFile x) = true := by
      intro x hx
      apply hall
      simp only [List.mem_append, List.mem_cons] at hx ⊢
      tauto
    constructor
    · have hlen : (pre ++ f :: (mid ++ g :: post)).length ≠ 0 := by simp
      simp only [mergeHandler, if_neg hlen, processAll_all_ok _ hall]
      simp [List.flatMap_append, List.flatMap_cons]
    · have hlen : (pre ++ g :: (mid ++ f :: post)).length ≠ 0 := by simp
      simp only [mergeHandler, if_neg hlen, processAll_all_ok _ hall2]
      simp [List.flatMap_append, List.flatMap_cons]
  · intro name buf pages hty hload
    simp [processFile, tryConvert, hty, hload, Except.map]

/-- Witness for C3 at a concrete three-file batch (PDF + two texts). -/
theorem C3_page_order_witness :
    mergeHandler ([] ++ docPdf :: ([txtA] ++ txtB :: [])) =
      .okPdf ([].flatMap okPages ++ (okPages docPdf ++
        ([txtA].flatMap okPages ++ (okPages txtB ++ [].flatMap okPages)))) ∧
    processFile ⟨"doc.pdf", docPdf.buffer⟩ = .ok ([0, 1].map .copied) :=
  ⟨(C3_page_order_follows_input_order.1 [] [txtA] [] docPdf txtB (by decide)).1,
   C3_page_order_follows_input_order.2.2 "doc.pdf" docPdf.buffer [0, 1]
     (by decide) rfl⟩

/-! ## Split and word-wrap lemmas -/

theorem splitChar_ne_nil (sep : Char) (l : List Char) : splitChar sep l ≠ [] := by
  cases l with
  | nil => simp [splitChar]
  | cons c cs =>
    simp only [splitChar]
    by_cases h : c = sep
    · simp [h]
    · simp only [if_neg h]
      cases splitChar sep cs <;> simp

theorem splitChar_append (sep : Char) (xs ys : List Char) :
    splitChar sep (xs ++ sep :: ys) = splitChar sep xs ++ splitChar sep ys := by
  induction xs with
  | nil => simp [splitChar]
  | cons c cs ih =>
    by_cases h : c = sep
    · subst h
      simp [splitChar, ih]
    · simp only [List.cons_append, splitChar, if_neg h]
      rw [show splitChar sep (cs.append (sep :: ys))
        = splitChar sep cs ++ splitChar sep ys from ih]
      cases hcs : splitChar sep cs with
      | nil => exact absurd hcs (splitChar_ne_nil sep cs)
      | cons w ws => simp

theorem splitChar_pieces_sep_free (sep : Char) :
    ∀ (l : List Char), ∀ w ∈ splitChar sep l, sep ∉ w := by
  intro l
  induction l with
  | nil =>
    intro w hw
    simp only [splitChar, List.mem_singleton] at hw
    simp [hw]
  | cons c cs ih =>
    intro w hw
    by_cases h : c = sep
    · simp only [splitChar, if_pos h] at hw
      rcases List.mem_cons.mp hw with h1 | h1
      · simp [h1]
      · exact ih w h1
    · simp only [splitChar, if_neg h] at hw
      cases hcs : splitChar sep cs with
      | nil => exact absurd hcs (splitChar_ne_nil sep cs)
      | cons v vs =>
        rw [hcs] at hw
        rcases List.mem_cons.mp hw with h1 | h1
        · subst h1
          intro hmem
          rcases List.mem_cons.mp hmem with h2 | h2
          · exact h h2.symm
          · exact ih v (hcs ▸ List.mem_cons_self v vs) h2
        · exact ih w (hcs ▸ List.mem_cons_of_mem v h1)

theorem splitChar_of_sep_not_mem (sep : Char) (l : List Char) (h : sep ∉ l) :
    splitChar sep l = [l] := by
  induction l with
  | nil => rfl
  | cons c cs ih =>
    have hc : ¬(c = sep) := fun he => h (he ▸ List.mem_cons_self c cs)
    have hcs : sep ∉ cs := fun hm => h (List.mem_cons_of_mem c hm)
    simp only [splitChar, if_neg hc, ih hcs]

theorem wordsOfLine_nil : wordsOfLine [] = [] := rfl

theorem wordsOfLine_append_space (a b : List Char) :
    wordsOfLine (a ++ ' ' :: b) = wordsOfLine a ++ wordsOfLine b := by
  simp [wordsOfLine, splitChar_append, List.filter_append]

theorem wordsOfLine_single (w : List Char) (h : ' ' ∉ w) :
    wordsOfLine w = if w = [] then [] else [w] := by
  simp only [wordsOfLine, splitChar_of_sep_not_mem ' ' w h]
  by_cases hw : w = [] <;> simp [hw]

theorem exceedsColumn_nil : exceedsColumn [] = false := rfl

theorem exceedsColumn_mono {l₁ l₂ : List Char} (h : l₁.length ≤ l₂.length) :
    exceedsColumn l₁ = true → exceedsColumn l₂ = true := by
  simp only [exceedsColumn, decide_eq_true_eq]
  omega

theorem exceedsColumn_ne_nil {l : List Char} (h : exceedsColumn l = true) :
    l ≠ [] := by
  intro hnil
  rw [hnil, exceedsColumn_nil] at h
  exact absurd h (by simp)

/-- Greedy wrapping never drops or reorders words: the words of the lines
`wrapGo` emits are the words of the accumulator followed by the nonempty
pending words. -/
theorem wrapGo_flatMap_words :
    ∀ (ws : List (List Char)) (current : List Char), (∀ w ∈ ws, ' ' ∉ w) →
      (wrapGo ws current).flatMap wordsOfLine
        = wordsOfLine current ++ ws.filter (· ≠ []) := by
  intro ws
  induction ws with
  | nil =>
    intro current _
    by_cases h : current = []
    · subst h
      simp [wrapGo, wordsOfLine_nil]
    · simp [wrapGo, h]
  | cons w ws ih =>
    intro current hfree
    have hw : ' ' ∉ w := hfree w (List.mem_cons_self w ws)
    have hrest : ∀ u ∈ ws, ' ' ∉ u :=
      fun u hu => hfree u (List.mem_cons_of_mem w hu)
    by_cases hc : current = []
    · subst hc
      simp only [wrapGo, if_pos rfl, if_true, ne_eq, not_true_eq_false,
        and_false, if_false]
      rw [ih w hrest, wordsOfLine_nil, wordsOfLine_single w hw]
      by_cases hwn : w = [] <;> simp [List.filter_cons, hwn]
    · simp only [wrapGo, if_neg hc]
      by_cases hx : exceedsColumn (current ++ ' ' :: w) = true
      · rw [if_pos ⟨hx, hc⟩]
        simp only [List.flatMap_cons]
        rw [ih w hrest, wordsOfLine_single w hw]
        by_cases hwn : w = [] <;> simp [List.filter_cons, hwn]
      · rw [if_neg (fun hand => hx hand.1)]
        rw [ih (current ++ ' ' :: w) hrest, wordsOfLine_append_space,
          wordsOfLine_single w hw]
        by_cases hwn : w = [] <;> simp [List.filter_cons, hwn]

/-- The overflowing lines `wrapGo` emits are exactly the overflowing inputs:
the accumulator if it overflows, followed by the oversized pending words,
each on its own line. -/
theorem wrapGo_filter_over :
    ∀ (ws : List (List Char)) (current : List Char),
      (wrapGo ws current).filter exceedsColumn
        = (if exceedsColumn current then [current] else [])
          ++ ws.filter exceedsColumn := by
  intro ws
  induction ws with
  | nil =>
    intro current
    by_cases h : current = []
    · subst h
      simp [wrapGo, exceedsColumn_nil]
    · simp only [wrapGo, if_neg h, List.filter_nil, List.append_nil]
      by_cases hx : exceedsColumn current = true <;>
        simp [List.filter_cons, hx]
  | cons w ws ih =>
    intro current
    by_cases hc : current = []
    · subst hc
      simp only [wrapGo, if_pos rfl, if_true, ne_eq, not_true_eq_false,
        and_false, if_false]
      rw [ih w]
      by_cases hwn : exceedsColumn w = true <;>
        simp [exceedsColumn_nil, hwn, List.filter_cons]
    · simp only [wrapGo, if_neg hc]
      by_cases hx : exceedsColumn (current ++ ' ' :: w) = true
      · rw [if_pos ⟨hx, hc⟩]
        rw [List.filter_cons, ih w]
        by_cases hcur : exceedsColumn current = true <;>
          by_cases hwn : exceedsColumn w = true <;>
            simp [hcur, hwn, List.filter_cons]
      · rw [if_neg (fun hand => hx hand.1)]
        rw [ih (current ++ ' ' :: w)]
        have hlen1 : current.length ≤ (current ++ ' ' :: w).length := by
          simp only [List.length_append, List.length_cons]
          omega
        have hlen2 : w.length ≤ (current ++ ' ' :: w).length := by
          simp only [List.length_append, List.length_cons]
          omega
        have hcur : exceedsColumn current = false := by
          by_contra hcur'
          exact hx (@exceedsColumn_mono current (current ++ ' ' :: w) hlen1
            (by simpa using hcur'))
        have hwn : exceedsColumn w = false := by
          by_contra hwn'
          exact hx (@exceedsColumn_mono w (current ++ ' ' :: w) hlen2
            (by simpa using hwn'))
        have htest : exceedsColumn (current ++ ' ' :: w) = false := by
          by_contra htest'
          exact hx (by simpa using htest')
        simp [hcur, hwn, htest, List.filter_cons]

theorem wrapLine_flatMap_words (line : List Char) :
    (wrapLine line).flatMap wordsOfLine = wordsOfLine line := by
  by_cases h : line = []
  · subst h
    simp [wrapLine, wordsOfLine_nil]
  · rw [wrapLine, if_neg h,
      wrapGo_flatMap_words (splitChar ' ' line) []
        (splitChar_pieces_sep_free ' ' line),
      wordsOfLine_nil, List.nil_append]
    rfl

theorem wrapText_flatMap_words (text : String) :
    (wrapText text).flatMap wordsOfLine = jsWords text := by
  rw [wrapText, jsWords, List.flatMap_assoc]
  simp only [wrapLine_flatMap_words]

theorem filter_ne_nil_filter_exceeds (l : List (List Char)) :
    (l.filter (· ≠ [])).filter exceedsColumn = l.filter exceedsColumn := by
  rw [List.filter_filter]
  apply List.filter_congr
  intro a _
  by_cases hx : exceedsColumn a = true
  · simp [hx, exceedsColumn_ne_nil hx]
  · rw [Bool.not_eq_true] at hx
    simp [hx]

theorem wrapLine_filter_over (line : List Char) :
    (wrapLine line).filter exceedsColumn
      = (wordsOfLine line).filter exceedsColumn := by
  by_cases h : line = []
  · subst h
    simp [wrapLine, wordsOfLine_nil, List.filter_cons, exceedsColumn_nil]
  · rw [wrapLine, if_neg h, wrapGo_filter_over (splitChar ' ' line) []]
    rw [wordsOfLine, filter_ne_nil_filter_exceeds]
    simp [exceedsColumn_nil]

theorem wrapText_filter_over (text : String) :
    (wrapText text).filter exceedsColumn
      = (jsWords text).filter exceedsColumn := by
  rw [wrapText, jsWords, List.filter_flatMap, List.filter_flatMap]
  simp only [wrapLine_filter_over]

/-! ## Claim C7 — word-wrap round trip -/

/-- On text free of unrenderable characters, and with a clean (or falsy)
title, the rendering does not throw and returns the `textToPdfPages`
layout. -/
theorem textToPdfPagesE_ok (text : String) (title : Option String)
    (htext : firstBadChar text = none)
    (htitle : (title.getD "").data.find? lineBadChar = none) :
    textToPdfPagesE text title = .ok (textToPdfPages text title) := by
  unfold textToPdfPagesE
  rw [htext, htitle]
  cases textToPdfPages text title with
  | nil => rfl
  | cons p ps => by_cases ht : titleTruthy title = true <;> simp [ht]

/-- A text with an unrenderable character makes the rendering throw the
encoder's message for its first such character, whatever the title. -/
theorem textToPdfPagesE_err (text : String) (title : Option String)
    (c : Char) (h : firstBadChar text = some c) :
    textToPdfPagesE text title = .error (winAnsiErrMsg c) := by
  unfold textToPdfPagesE
  rw [h]

/-- C7 counterexample — "never throws ... for every input text" is refuted:
on a text containing U+2603 (absent from WinAnsi) the width call of the
wrap loop (src/app.js:240) throws pdf-lib's encode error, and so does the
whole rendering; no pages are produced for the text. -/
theorem C7_counterexample_unencodable_text_throws :
    widthOfTextAtSize ("snow\u2603day").data 10
      = .error (winAnsiErrMsg '\u2603') ∧
    firstBadChar "snow\u2603day" = some '\u2603' ∧
    textToPdfPagesE "snow\u2603day" (some "snow.txt")
      = .error (winAnsiErrMsg '\u2603') :=
  ⟨by rfl, by decide, by rfl⟩

/-- C7 amended — Word-wrapping never throws and never drops content FOR
EVERY TEXT WHOSE CHARACTERS WINANSI CAN ENCODE (newlines aside), not for
every text: on such text (with a clean or falsy title) the rendering
returns the wrapped pages without throwing, concatenating the
whitespace-separated words of the wrapped lines reconstructs the input's
word sequence, the overflowing output lines are exactly the oversized input
words — each emitted whole on exactly one overflowing line, never split
mid-word — and the overflow test is the returned Courier width at size 10
exceeding the 512pt column; a text containing a WinAnsi-unencodable
character instead makes the renderer throw the encoder's error. -/
theorem C7_word_wrap_round_trip_amended (text : String) :
    (firstBadChar text = none → ∀ title : Option String,
      (title.getD "").data.find? lineBadChar = none →
      textToPdfPagesE text title = .ok (textToPdfPages text title)) ∧
    ((wrapText text).flatMap wordsOfLine = jsWords text) ∧
    ((wrapText text).filter exceedsColumn
      = (jsWords text).filter exceedsColumn) ∧
    (∀ l : List Char, (∀ c ∈ l, winAnsiEncodable c = true) →
      widthOfTextAtSize l 10 = .ok (courierWidth l 10) ∧
      (exceedsColumn l = true ↔ courierWidth l 10 > maxTextWidth)) ∧
    (∀ c : Char, firstBadChar text = some c → ∀ title : Option String,
      textToPdfPagesE text title = .error (winAnsiErrMsg c)) :=
  ⟨fun htext title htitle => textToPdfPagesE_ok text title htext htitle,
   wrapText_flatMap_words text,
   wrapText_filter_over text,
   fun l h => exceedsColumn_iff_width l h,
   fun c h title => textToPdfPagesE_err text title c h⟩

/-- Witness for the amended C7 at a concrete two-line text. -/
theorem C7_word_wrap_witness :
    textToPdfPagesE "lorem ipsum\ndolor sit" (some "a.txt")
      = .ok (textToPdfPages "lorem ipsum\ndolor sit" (some "a.txt")) ∧
    (wrapText "lorem ipsum\ndolor sit").flatMap wordsOfLine
      = jsWords "lorem ipsum\ndolor sit" :=
  ⟨(C7_word_wrap_round_trip_amended "lorem ipsum\ndolor sit").1 (by decide)
      (some "a.txt") (by decide),
   (C7_word_wrap_round_trip_amended "lorem ipsum\ndolor sit").2.1⟩

/-! ## Claim C2 — per-file failure isolation -/

/-- A notice whose text renders cleanly yields exactly the `errorPages`
group (`'Error'` is a clean title). -/
theorem noticeOrThrow_ok (filename msg : String)
    (h : firstBadChar (errText filename msg) = none) :
    noticeOrThrow filename msg = .ok (errorPages filename msg) := by
  unfold noticeOrThrow renderTextE errorPages renderText
  rw [textToPdfPagesE_ok _ _ h (by decide)]
  rfl

/-- C2 counterexample — "merge succeeds overall" fails on a batch in the
claim's domain: snow.txt's conversion fails (its content holds U+2603, the
width call throws) while a.txt and b.txt convert, yet the batch answers a
500 — the catch's notice embeds the thrown message, whose embedded U+2603
makes the notice rendering re-throw past the per-file catch. -/
theorem C2_counterexample_unencodable_failure_aborts :
    getFileType "snow.txt" = some .text ∧
    exceptOk (processFile snowTxt) = false ∧
    exceptOk (processFile txtA) = true ∧
    exceptOk (processFile txtB) = true ∧
    mergeHandler [snowTxt, txtA, txtB] = .serverError (winAnsiErrMsg '\u2603') :=
  ⟨by decide, by decide, by decide, by decide, by decide⟩

/-- C2 amended — per-file failure isolation holds WHEN THE ERROR NOTICE
ITSELF RENDERS (its text — filename plus thrown message — is free of
WinAnsi-unencodable characters, as with every plain-ASCII library message)
and the other files process cleanly: the batch completes, the failing
file's position is occupied by the generated error notice built from its
filename and the failure message (whose visible words are exactly the words
of that notice text), every file after the failing one is still processed
in place, and the notice is a single page whenever its wrapped text fits
one page; a failure whose notice text is unencodable instead aborts the
batch with a 500. -/
theorem C2_per_file_failure_isolated_amended
    (pre post : List InputFile) (f : InputFile) (e : String)
    (himg : getFileType f.originalname = some .image)
    (hfail : f.buffer.normalizeImg = .error e)
    (hnotice : firstBadChar (errText f.originalname e) = none)
    (hpre : ∀ x ∈ pre, exceptOk (processFile x) = true)
    (hpost : ∀ x ∈ post, exceptOk (processFile x) = true) :
    mergeHandler (pre ++ f :: post) =
      .okPdf (pre.flatMap okPages ++ (errorPages f.originalname e ++
        post.flatMap okPages)) ∧
    errText f.originalname e
      = "Error processing file: " ++ f.originalname ++ "\n\n" ++ e ∧
    (errorPages f.originalname e).flatMap pageWords
      = jsWords (errText f.originalname e) ∧
    (0 < (wrapText (errText f.originalname e)).length →
      (wrapText (errText f.originalname e)).length ≤ 43 →
      (errorPages f.originalname e).length = 1) := by
  have htry : tryConvert f = .error e := by
    simp [tryConvert, himg, hfail, Except.map]
  have hf : processFile f = .ok (errorPages f.originalname e) := by
    simp [processFile, htry, noticeOrThrow_ok _ _ hnotice]
  have hall : ∀ x ∈ pre ++ f :: post, exceptOk (processFile x) = true := by
    intro x hx
    rcases List.mem_append.mp hx with h1 | h1
    · exact hpre x h1
    · rcases List.mem_cons.mp h1 with h2 | h2
      · subst h2
        simp [exceptOk, hf]
      · exact hpost x h2
  refine ⟨?_, rfl, ?_, ?_⟩
  · have hlen : (pre ++ f :: post).length ≠ 0 := by simp
    simp only [mergeHandler, if_neg hlen, processAll_all_ok _ hall]
    simp [List.flatMap_append, List.flatMap_cons, okPages, hf]
  · rw [errorPages, renderText, List.flatMap_map]
    simp only [pageWords]
    rw [← List.flatMap_assoc, textToPdfPages_flatMap_lines,
      wrapText_flatMap_words]
  · intro h0 h43
    rw [errorPages, renderText, List.length_map]
    have hlen : (textToPdfPages (errText f.originalname e)
          (some "Error")).length
        = (chunkSucc (maxLinesFor (some "Error") - 1)
            (wrapText (errText f.originalname e))).length := by
      rw [← textToPdfPages_map_lines, List.length_map]
    rw [hlen]
    have h43' : maxLinesFor (some "Error") = 43 :=
      (maxLinesFor_values "Error" (by decide)).1
    rw [chunkSucc_single _ _
      (fun hnil => by rw [hnil] at h0; simp at h0)
      (by rw [h43']; omega)]
    rfl

/-- Witness for the amended C2: the batch [a.txt, bad.jpg, b.txt, c.txt] —
three valid files plus one corrupt image — merges into four page groups in
input order, the corrupt image's group being a one-page error notice. -/
theorem C2_per_file_failure_witness :
    mergeHandler ([txtA] ++ badJpg :: [txtB, txtC]) =
      .okPdf ([txtA].flatMap okPages ++ (errorPages "bad.jpg" badImgMsg ++
        [txtB, txtC].flatMap okPages)) ∧
    (errorPages "bad.jpg" badImgMsg).length = 1 :=
  ⟨(C2_per_file_failure_isolated_amended [txtA] [txtB, txtC] badJpg badImgMsg
      (by decide) rfl (by decide) (by decide) (by decide)).1,
   (C2_per_file_failure_isolated_amended [txtA] [txtB, txtC] badJpg badImgMsg
      (by decide) rfl (by decide) (by decide) (by decide)).2.2.2
     (by decide) (by decide)⟩

/-! ## Claim C8 — image page placement -/

/-- C8 counterexample — a 50×50 image fits the page (50 ≤ 612, 50 ≤ 792) yet
its page is 100×100, not the claimed 50×50: the `Math.max(., 100)` floor of
src/app.js:1411 resizes the page of any image with a dimension under 100pt
(the image itself is still drawn at 50×50 from the page origin). -/
theorem C8_counterexample_small_image_page_floored :
    (50 : Nat) ≤ 612 ∧ (50 : Nat) ≤ 792 ∧
    imagePageUnit 50 50 = .image 100 100 50 50 ∧
    imagePageUnit 50 50 ≠ .image 50 50 50 50 := by
  refine ⟨by norm_num, by norm_num, ?_, ?_⟩ <;>
    norm_num [imagePageUnit, imageScale, mathMin, mathMax, PageUnit.image.injEq]

/-- C8 amended — the scale `min(612/w, 792/h, 1)` never exceeds 1 (no
upscaling); a fitting image keeps scale 1 and its page equals the pixel
dimensions floored at 100pt per dimension — in particular, it equals the
pixel dimensions exactly whenever both are at least 100; an oversized image
is scaled by `min(612/w, 792/h) < 1`; and for every image the page fits
within 612×792 while the drawn image preserves the aspect ratio exactly. -/
theorem C8_image_scaling_amended (w h : Nat) (hw : 1 ≤ w) (hh : 1 ≤ h) :
    imageScale w h ≤ 1 ∧
    (w ≤ 612 → h ≤ 792 → imageScale w h = 1 ∧
      imagePageUnit w h
        = .image (mathMax (w : ℚ) 100) (mathMax (h : ℚ) 100) (w : ℚ) (h : ℚ)) ∧
    (100 ≤ w → w ≤ 612 → 100 ≤ h → h ≤ 792 →
      imagePageUnit w h = .image (w : ℚ) (h : ℚ) (w : ℚ) (h : ℚ)) ∧
    ((612 < w ∨ 792 < h) →
      imageScale w h = min (612 / (w : ℚ)) (792 / (h : ℚ)) ∧
      imageScale w h < 1) ∧
    (mathMax ((w : ℚ) * imageScale w h) 100 ≤ 612 ∧
      mathMax ((h : ℚ) * imageScale w h) 100 ≤ 792 ∧
      ((w : ℚ) * imageScale w h) * (h : ℚ)
        = ((h : ℚ) * imageScale w h) * (w : ℚ)) := by
  have hwq : (0 : ℚ) < (w : ℚ) := by exact_mod_cast Nat.lt_of_lt_of_le Nat.zero_lt_one hw
  have hhq : (0 : ℚ) < (h : ℚ) := by exact_mod_cast Nat.lt_of_lt_of_le Nat.zero_lt_one hh
  have hscale_min : imageScale w h
      = min (612 / (w : ℚ)) (min (792 / (h : ℚ)) 1) := by
    rw [imageScale, mathMin_eq_min, mathMin_eq_min]
  have hle1 : imageScale w h ≤ 1 := by
    rw [hscale_min]
    exact le_trans (min_le_right _ _) (min_le_right _ _)
  have hfit : w ≤ 612 → h ≤ 792 → imageScale w h = 1 := by
    intro hw6 hh7
    have hA : (1 : ℚ) ≤ 612 / (w : ℚ) :=
      (one_le_div hwq).mpr (by exact_mod_cast hw6)
    have hB : (1 : ℚ) ≤ 792 / (h : ℚ) :=
      (one_le_div hhq).mpr (by exact_mod_cast hh7)
    rw [hscale_min, min_eq_right hB, min_eq_right hA]
  have hsA : imageScale w h ≤ 612 / (w : ℚ) := by
    rw [hscale_min]; exact min_le_left _ _
  have hsB : imageScale w h ≤ 792 / (h : ℚ) := by
    rw [hscale_min]
    exact le_trans (min_le_right _ _) (min_le_left _ _)
  have hwb : (w : ℚ) * imageScale w h ≤ 612 := by
    calc (w : ℚ) * imageScale w h ≤ (w : ℚ) * (612 / (w : ℚ)) :=
          mul_le_mul_of_nonneg_left hsA (le_of_lt hwq)
      _ = 612 := by rw [mul_comm, div_mul_cancel₀ _ (ne_of_gt hwq)]
  have hhb : (h : ℚ) * imageScale w h ≤ 792 := by
    calc (h : ℚ) * imageScale w h ≤ (h : ℚ) * (792 / (h : ℚ)) :=
          mul_le_mul_of_nonneg_left hsB (le_of_lt hhq)
      _ = 792 := by rw [mul_comm, div_mul_cancel₀ _ (ne_of_gt hhq)]
  refine ⟨hle1, ?_, ?_, ?_, ?_, ?_, by ring⟩
  · intro hw6 hh7
    refine ⟨hfit hw6 hh7, ?_⟩
    simp [imagePageUnit, hfit hw6 hh7]
  · intro hw1 hw6 hh1 hh7
    have h1 : imageScale w h = 1 := hfit hw6 hh7
    have hmw : mathMax (w : ℚ) 100 = (w : ℚ) := by
      rw [mathMax_eq_max]
      exact max_eq_left (by exact_mod_cast hw1)
    have hmh : mathMax (h : ℚ) 100 = (h : ℚ) := by
      rw [mathMax_eq_max]
      exact max_eq_left (by exact_mod_cast hh1)
    simp [imagePageUnit, h1, hmw, hmh]
  · intro hover
    have hlt : min (612 / (w : ℚ)) (792 / (h : ℚ)) < 1 := by
      rcases hover with hw6 | hh7
      · exact min_lt_iff.mpr
          (Or.inl ((div_lt_one hwq).mpr (by exact_mod_cast hw6)))
      · exact min_lt_iff.mpr
          (Or.inr ((div_lt_one hhq).mpr (by exact_mod_cast hh7)))
    constructor
    · rw [hscale_min, ← min_assoc, min_eq_left (le_of_lt hlt)]
    · rw [hscale_min, ← min_assoc]
      exact lt_of_le_of_lt (min_le_left _ _) hlt
  · rw [mathMax_eq_max]
    exact max_le hwb (by norm_num)
  · rw [mathMax_eq_max]
    exact max_le hhb (by norm_num)

/-- Witness for the amended C8: a fitting 200×300 image keeps its exact
pixel dimensions; an oversized 1224×792 image is scaled to a 612×396 page. -/
theorem C8_image_scaling_witness :
    imagePageUnit 200 300 = .image 200 300 200 300 ∧
    imageScale 1224 792 = min (612 / (1224 : ℚ)) (792 / (792 : ℚ)) :=
  ⟨(C8_image_scaling_amended 200 300 (by norm_num) (by norm_num)).2.2.1
      (by norm_num) (by norm_num) (by norm_num) (by norm_num),
   ((C8_image_scaling_amended 1224 792 (by norm_num) (by norm_num)).2.2.2.1
      (Or.inl (by norm_num))).1⟩

/-! ## Natural-sort comparator lemmas and claim C6 -/

theorem cmpNat_self (n : Nat) : cmpNat n n = .eq := by
  simp [cmpNat]

theorem cmpNat_eq_iff (m n : Nat) : cmpNat m n = .eq ↔ m = n := by
  unfold cmpNat
  by_cases h1 : m < n
  · simp [h1]
    omega
  · by_cases h2 : n < m <;> simp [h1, h2] <;> omega

theorem cmpNat_lt_iff (m n : Nat) : cmpNat m n = .lt ↔ m < n := by
  unfold cmpNat
  by_cases h1 : m < n
  · simp [h1]
  · by_cases h2 : n < m <;> simp [h1, h2]

theorem cmpNat_swap (m n : Nat) : cmpNat n m = (cmpNat m n).swap := by
  unfold cmpNat
  rcases Nat.lt_trichotomy m n with h | h | h
  · simp [h, Nat.lt_asymm h, Ordering.swap]
  · subst h
    simp [Nat.lt_irrefl, Ordering.swap]
  · simp [h, Nat.lt_asymm h, Ordering.swap]


theorem charCmp_toNat_inj {a b : Char} (h : a.toNat = b.toNat) : a = b :=
  Char.ext (UInt32.ext h)

theorem cmpChars_self (l : List Char) : cmpChars l l = .eq := by
  induction l with
  | nil => rfl
  | cons a as ih => simp [cmpChars, cmpNat_self, ih]

theorem cmpChars_eq_iff : ∀ (s t : List Char), cmpChars s t = .eq ↔ s = t := by
  intro s
  induction s with
  | nil =>
    intro t
    cases t <;> simp [cmpChars]
  | cons a as ih =>
    intro t
    cases t with
    | nil => simp [cmpChars]
    | cons b bs =>
      simp only [cmpChars]
      cases hab : cmpNat a.toNat b.toNat with
      | eq =>
        have hab' : a = b := charCmp_toNat_inj ((cmpNat_eq_iff _ _).mp hab)
        simp [hab', ih bs]
      | lt =>
        have : a ≠ b := by
          intro he
          rw [he, cmpNat_self] at hab
          exact absurd hab (by simp)
        simp [this]
      | gt =>
        have : a ≠ b := by
          intro he
          rw [he, cmpNat_self] at hab
          exact absurd hab (by simp)
        simp [this]

theorem cmpChars_swap : ∀ (s t : List Char), cmpChars t s = (cmpChars s t).swap := by
  intro s
  induction s with
  | nil => intro t; cases t <;> rfl
  | cons a as ih =>
    intro t
    cases t with
    | nil => rfl
    | cons b bs =>
      simp only [cmpChars, cmpNat_swap a.toNat b.toNat]
      cases cmpNat a.toNat b.toNat <;> simp [Ordering.swap, ih bs]

theorem cmpChars_lt_trans :
    ∀ (s t u : List Char), cmpChars s t = .lt → cmpChars t u = .lt →
      cmpChars s u = .lt := by
  intro s
  induction s with
  | nil =>
    intro t u hst htu
    cases t with
    | nil => simp [cmpChars] at hst
    | cons b bs =>
      cases u with
      | nil => simp [cmpChars] at htu
      | cons c cs => rfl
  | cons a as ih =>
    intro t u hst htu
    cases t with
    | nil => simp [cmpChars] at hst
    | cons b bs =>
      cases u with
      | nil => simp [cmpChars] at htu
      | cons c cs =>
        simp only [cmpChars] at hst htu ⊢
        cases hab : cmpNat a.toNat b.toNat with
        | gt => rw [hab] at hst; exact absurd hst (by simp)
        | eq =>
          have hab' : a.toNat = b.toNat := (cmpNat_eq_iff _ _).mp hab
          rw [hab] at hst
          cases hbc : cmpNat b.toNat c.toNat with
          | gt => rw [hbc] at htu; exact absurd htu (by simp)
          | eq =>
            have hbc' : b.toNat = c.toNat := (cmpNat_eq_iff _ _).mp hbc
            rw [hbc] at htu
            rw [show cmpNat a.toNat c.toNat = .eq from
              (cmpNat_eq_iff _ _).mpr (hab'.trans hbc')]
            exact ih bs cs hst htu
          | lt =>
            rw [show cmpNat a.toNat c.toNat = .lt from
              (cmpNat_lt_iff _ _).mpr (by
                have := (cmpNat_lt_iff _ _).mp hbc
                omega)]
        | lt =>
          cases hbc : cmpNat b.toNat c.toNat with
          | gt => rw [hbc] at htu; exact absurd htu (by simp)
          | eq =>
            have hbc' : b.toNat = c.toNat := (cmpNat_eq_iff _ _).mp hbc
            rw [show cmpNat a.toNat c.toNat = .lt from
              (cmpNat_lt_iff _ _).mpr (by
                have := (cmpNat_lt_iff _ _).mp hab
                omega)]
          | lt =>
            rw [show cmpNat a.toNat c.toNat = .lt from
              (cmpNat_lt_iff _ _).mpr (by
                have h1 := (cmpNat_lt_iff _ _).mp hab
                have h2 := (cmpNat_lt_iff _ _).mp hbc
                omega)]

theorem cmpTok_self (x : NTok) : cmpTok x x = .eq := by
  cases x with
  | num n => exact cmpNat_self n
  | str s => exact cmpChars_self s

theorem cmpTok_eq_iff (x y : NTok) : cmpTok x y = .eq ↔ x = y := by
  cases x <;> cases y <;> simp [cmpTok, cmpNat_eq_iff, cmpChars_eq_iff]

theorem cmpTok_swap (x y : NTok) : cmpTok y x = (cmpTok x y).swap := by
  cases x with
  | num m =>
    cases y with
    | num n => exact cmpNat_swap m n
    | str t => rfl
  | str s =>
    cases y with
    | num n => rfl
    | str t => exact cmpChars_swap s t

theorem cmpTok_lt_trans (x y z : NTok) (hxy : cmpTok x y = .lt)
    (hyz : cmpTok y z = .lt) : cmpTok x z = .lt := by
  cases x with
  | num m =>
    cases z with
    | num p =>
      cases y with
      | num n =>
        exact (cmpNat_lt_iff m p).mpr (Nat.lt_trans
          ((cmpNat_lt_iff m n).mp hxy) ((cmpNat_lt_iff n p).mp hyz))
      | str t => simp [cmpTok] at hyz
    | str u => rfl
  | str s =>
    cases y with
    | num n => simp [cmpTok] at hxy
    | str t =>
      cases z with
      | num p => simp [cmpTok] at hyz
      | str u => exact cmpChars_lt_trans s t u hxy hyz

theorem cmpTokList_self (l : List NTok) : cmpTokList l l = .eq := by
  induction l with
  | nil => rfl
  | cons x xs ih => simp [cmpTokList, cmpTok_self, ih]

theorem cmpTokList_eq_iff : ∀ (l m : List NTok), cmpTokList l m = .eq ↔ l = m := by
  intro l
  induction l with
  | nil =>
    intro m
    cases m <;> simp [cmpTokList]
  | cons x xs ih =>
    intro m
    cases m with
    | nil => simp [cmpTokList]
    | cons y ys =>
      simp only [cmpTokList]
      cases hxy : cmpTok x y with
      | eq =>
        have := (cmpTok_eq_iff x y).mp hxy
        simp [this, ih ys]
      | lt =>
        have : x ≠ y := by
          intro he
          rw [he, cmpTok_self] at hxy
          exact absurd hxy (by simp)
        simp [this]
      | gt =>
        have : x ≠ y := by
          intro he
          rw [he, cmpTok_self] at hxy
          exact absurd hxy (by simp)
        simp [this]

theorem cmpTokList_swap : ∀ (l m : List NTok),
    cmpTokList m l = (cmpTokList l m).swap := by
  intro l
  induction l with
  | nil => intro m; cases m <;> rfl
  | cons x xs ih =>
    intro m
    cases m with
    | nil => rfl
    | cons y ys =>
      simp only [cmpTokList, cmpTok_swap x y]
      cases cmpTok x y <;> simp [Ordering.swap, ih ys]

theorem cmpTokList_lt_trans : ∀ (l m n : List NTok),
    cmpTokList l m = .lt → cmpTokList m n = .lt → cmpTokList l n = .lt := by
  intro l
  induction l with
  | nil =>
    intro m n hlm hmn
    cases m with
    | nil => simp [cmpTokList] at hlm
    | cons y ys =>
      cases n with
      | nil => simp [cmpTokList] at hmn
      | cons z zs => rfl
  | cons x xs ih =>
    intro m n hlm hmn
    cases m with
    | nil => simp [cmpTokList] at hlm
    | cons y ys =>
      cases n with
      | nil => simp [cmpTokList] at hmn
      | cons z zs =>
        simp only [cmpTokList] at hlm hmn ⊢
        cases hxy : cmpTok x y with
        | gt => rw [hxy] at hlm; exact absurd hlm (by simp)
        | eq =>
          have hxy' : x = y := (cmpTok_eq_iff x y).mp hxy
          rw [hxy] at hlm
          cases hyz : cmpTok y z with
          | gt => rw [hyz] at hmn; exact absurd hmn (by simp)
          | eq =>
            have hyz' : y = z := (cmpTok_eq_iff y z).mp hyz
            rw [hyz] at hmn
            rw [show cmpTok x z = .eq from
              (cmpTok_eq_iff x z).mpr (hxy'.trans hyz')]
            exact ih ys zs hlm hmn
          | lt =>
            rw [show cmpTok x z = .lt from hxy' ▸ hyz]
        | lt =>
          cases hyz : cmpTok y z with
          | gt => rw [hyz] at hmn; exact absurd hmn (by simp)
          | eq =>
            have hyz' : y = z := (cmpTok_eq_iff y z).mp hyz
            rw [show cmpTok x z = .lt from hyz' ▸ hxy]
          | lt =>
            rw [cmpTok_lt_trans x y z hxy hyz]

/-- C6 — The comparator is a valid total order on strings: reflexively zero
(`compare(a,a) = 0`); antisymmetric in the sign sense (`compare(b,a)` is the
sign-swap of `compare(a,b)`); `compare(a,b) = 0` happens exactly when the
two strings tokenize to the same run sequence (order-equivalence: they then
compare identically against every third string); the strict order is
transitive; and numeric runs compare by integer value, so
`compare("file2.txt","file10.txt") < 0`. -/
theorem C6_natural_sort_total_order :
    (∀ a : String, naturalSort a a = .eq) ∧
    (∀ a b : String, naturalSort b a = (naturalSort a b).swap) ∧
    (∀ a b : String, naturalSort a b = .eq →
      ∀ c : String, naturalSort a c = naturalSort b c) ∧
    (∀ a b c : String, naturalSort a b = .lt → naturalSort b c = .lt →
      naturalSort a c = .lt) ∧
    naturalSort "file2.txt" "file10.txt" = .lt := by
  refine ⟨?_, ?_, ?_, ?_, by decide⟩
  · intro a
    exact cmpTokList_self _
  · intro a b
    exact cmpTokList_swap _ _
  · intro a b hab c
    have heq : tokenize a.data = tokenize b.data :=
      (cmpTokList_eq_iff _ _).mp hab
    unfold naturalSort
    rw [heq]
  · intro a b c h1 h2
    exact cmpTokList_lt_trans _ _ _ h1 h2

/-- Witness for C6 at concrete comparisons (note `"a01b"` and `"a1b"` are
order-equivalent — their digit runs have equal value — and compare
identically against a third string). -/
theorem C6_natural_sort_witness :
    naturalSort "a" "a" = .eq ∧
    naturalSort "file10.txt" "file2.txt"
      = (naturalSort "file2.txt" "file10.txt").swap ∧
    naturalSort "a01b" "x" = naturalSort "a1b" "x" :=
  ⟨C6_natural_sort_total_order.1 "a",
   C6_natural_sort_total_order.2.1 "file2.txt" "file10.txt",
   C6_natural_sort_total_order.2.2.1 "a01b" "a1b" (by decide) "x"⟩
